import Mathlib

/-!
# The HTML transform pipeline of `esbuild.config.js`

The build script reads `index.html`, cuts the inline `text/babel` script out of
it (the payload written to `src/app.js`) and rewrites the document with eight
`String.prototype.replace` calls (the text written to `dist/index.html`).

A JavaScript string is modelled as the list of its UTF-16 code units, so that
offsets (`indexOf`, `substring`) count what the engine counts.  The library
functions used by the script are embedded with their ECMAScript behaviour:

* `indexOf`   : first occurrence at or after a clamped start position, `-1` when absent;
* `substring` : both bounds clamped to `[0, length]` and swapped when out of order;
* `trim`      : strips ECMAScript white space and line terminators at both ends;
* `replace`   : with a string pattern replaces the first occurrence only; with the
  regular expression of rule 1 (no `g` flag) replaces the leftmost match, the
  lazy quantifier taking the shortest extension.

None of the replacement texts contains a dollar sign, so the substitution
templates of `replace` are literal.
-/

namespace EsbuildConfig

/-! ## Strings -/

/-- A JavaScript string value: the sequence of its UTF-16 code units. -/
abbrev JSString := List Nat

/-- UTF-16 encoding of one Unicode scalar value. -/
def utf16 (c : Char) : List Nat :=
  if c.toNat < 0x10000 then [c.toNat]
  else [0xD800 + (c.toNat - 0x10000) / 0x400, 0xDC00 + (c.toNat - 0x10000) % 0x400]

/-- The JavaScript string denoted by a literal. -/
def js (s : String) : JSString := s.toList.flatMap utf16

/-- Offset of the first occurrence of `pat` in `s` (the abstract operation
`StringIndexOf` started at offset 0), `none` when `pat` does not occur. -/
def findFrom (pat : JSString) : JSString → Option Nat
  | [] => if pat.isPrefixOf [] then some 0 else none
  | c :: t => if pat.isPrefixOf (c :: t) then some 0 else (findFrom pat t).map (· + 1)

/-- The method `s.indexOf(pat, pos)`: the start position is clamped to `[0, s.length]`,
the result is `-1` when there is no occurrence at or after it. -/
def indexOf (s pat : JSString) (pos : Int) : Int :=
  let start := min pos.toNat s.length
  match findFrom pat (s.drop start) with
  | some k => ((start + k : Nat) : Int)
  | none => -1

/-- The method `s.substring(a, b)`: both bounds are clamped to `[0, s.length]`
(a negative bound becomes 0) and swapped when `a > b`. -/
def substring (s : JSString) (a b : Int) : JSString :=
  let fa := min a.toNat s.length
  let fb := min b.toNat s.length
  (s.drop (min fa fb)).take (max fa fb - min fa fb)

/-- ECMAScript `WhiteSpace` and `LineTerminator` code units, the ones `trim` strips. -/
def isWhiteSpace (c : Nat) : Bool :=
  c == 0x09 || c == 0x0A || c == 0x0B || c == 0x0C || c == 0x0D || c == 0x20 ||
  c == 0xA0 || c == 0x1680 || (0x2000 ≤ c && c ≤ 0x200A) || c == 0x2028 ||
  c == 0x2029 || c == 0x202F || c == 0x205F || c == 0x3000 || c == 0xFEFF

/-- The method `s.trim()`. -/
def trim (s : JSString) : JSString :=
  ((s.dropWhile isWhiteSpace).reverse.dropWhile isWhiteSpace).reverse

/-- The method `s.replace(pat, rep)` for a string pattern and a replacement text
without substitution templates: only the first occurrence is replaced, an
absent pattern leaves the string unchanged. -/
def replaceStr (s pat rep : JSString) : JSString :=
  match findFrom pat s with
  | none => s
  | some i => s.take i ++ rep ++ s.drop (i + pat.length)

/-! ## The regular expression of rule 1 -/

/-- The pattern items occurring in the regular expression of rule 1. -/
inductive Item where
  /-- A literal code unit. -/
  | ch (c : Nat)
  /-- The lazy quantifier over the class of all code units: any text, as short as possible. -/
  | lazyAny
  deriving DecidableEq, Repr

/-- Tries the continuation `k` on `xs`, then on `xs` with one more code unit
consumed, and so on: the backtracking order of a lazy quantifier.  The result
counts the code units consumed. -/
def lazyStar (k : JSString → Option Nat) : JSString → Option Nat
  | [] => k []
  | x :: xs =>
    match k (x :: xs) with
    | some n => some n
    | none => (lazyStar k xs).map (· + 1)

/-- Backtracking match of a pattern anchored at the head of the input: the
number of code units the match consumes, `none` when it fails. -/
def matchHere : List Item → JSString → Option Nat
  | [], _ => some 0
  | Item.ch c :: ps, xs =>
    match xs with
    | [] => none
    | x :: xs' => if x = c then (matchHere ps xs').map (· + 1) else none
  | Item.lazyAny :: ps, xs => lazyStar (matchHere ps) xs

/-- Leftmost match of a pattern in `s`: start offset and length. -/
def regexSearch (re : List Item) : JSString → Option (Nat × Nat)
  | [] => (matchHere re []).map (fun n => (0, n))
  | x :: xs =>
    match matchHere re (x :: xs) with
    | some n => some (0, n)
    | none => (regexSearch re xs).map (fun r => (r.1 + 1, r.2))

/-- The method `s.replace(re, rep)` for a regular expression without the `g` flag. -/
def replaceRegex (s : JSString) (re : List Item) (rep : JSString) : JSString :=
  match regexSearch re s with
  | none => s
  | some r => s.take r.1 ++ rep ++ s.drop (r.1 + r.2)

/-! ## The literals of the script -/

/-- Opening marker of the inline script block. -/
def OPEN : JSString := js "<script type=\"text/babel\">"

/-- Closing marker of a script block. -/
def CLOSE : JSString := js "</script>"

/-- Tag loading the local transpiler (pattern of rule 2). -/
def BABEL : JSString := js "<script src=\"vendors/babel.min.js\"></script>"

/-- Tag loading the local framework bundle (pattern of rule 3). -/
def REACT : JSString := js "<script src=\"vendors/react-with-dom.js\"></script>"

/-- Replacement text of rule 3: the template literal spans two source lines. -/
def CDN : JSString :=
  js "<script src=\"https://unpkg.com/react@18.2.0/umd/react.production.min.js\"></script>\n       <script src=\"https://unpkg.com/react-dom@18.2.0/umd/react-dom.production.min.js\"></script>"

/-- Title-closing tag (pattern of rule 4). -/
def TITLE : JSString := js "</title>"

/-- Replacement text of rule 4: the template literal spans four source lines. -/
def PRELOAD : JSString :=
  js "</title>\n       <link rel=\"preload\" href=\"./bundle.min.js\" as=\"script\">\n       <link rel=\"preload\" href=\"./styles.min.css\" as=\"style\">\n       <link rel=\"preload\" href=\"./lato.woff2\" as=\"font\" crossorigin>"

/-- Body-closing tag (pattern of rule 5). -/
def BODY : JSString := js "</body>"

/-- Replacement text of rule 5. -/
def BUNDLE : JSString := js "<script src=\"./bundle.min.js\"></script></body>"

/-- Pattern of rule 6. -/
def RESET : JSString := js "href=\"reset.css\""

/-- Replacement text of rule 6. -/
def RESETMIN : JSString := js "href=\"./reset.min.css\""

/-- Pattern of rule 7. -/
def STYLES : JSString := js "href=\"styles.css\""

/-- Replacement text of rule 7. -/
def STYLESMIN : JSString := js "href=\"./styles.min.css\""

/-- Pattern of rule 8. -/
def FONT : JSString := js "href=\"assets/lato.woff2\""

/-- Replacement text of rule 8. -/
def FONTMIN : JSString := js "href=\"./lato.woff2\""

/-- The regular expression of rule 1: the opening marker, any text taken
lazily, the closing marker. -/
def blockRegex : List Item :=
  OPEN.map Item.ch ++ [Item.lazyAny] ++ CLOSE.map Item.ch

/-! ## Script extraction -/

/-- The constant `scriptStart` (source line 42): offset of the opening marker plus 27. -/
def scriptStart (html : JSString) : Int := indexOf html OPEN 0 + 27

/-- The constant `scriptEnd` (source line 43): offset of the first closing marker
from `scriptStart` on. -/
def scriptEnd (html : JSString) : Int := indexOf html CLOSE (scriptStart html)

/-- The constant `scriptContent` (source line 44), the text written to
`src/app.js`.  No step of its computation can throw. -/
def scriptContent (html : JSString) : JSString :=
  trim (substring html (scriptStart html) (scriptEnd html))

/-! ## The eight rewrites -/

/-- Rule 1 (source lines 50-53): remove the inline script block. -/
def rule1 (html : JSString) : JSString := replaceRegex html blockRegex []

/-- Rule 2 (source lines 54-57): remove the tag loading the local transpiler. -/
def rule2 (html : JSString) : JSString := replaceStr html BABEL []

/-- Rule 3 (source lines 60-64): load the framework from the CDN. -/
def rule3 (html : JSString) : JSString := replaceStr html REACT CDN

/-- Rule 4 (source lines 67-73): the preload hints at the title-closing tag. -/
def rule4 (html : JSString) : JSString := replaceStr html TITLE PRELOAD

/-- Rule 5 (source lines 75-78): the bundle script at the body-closing tag. -/
def rule5 (html : JSString) : JSString := replaceStr html BODY BUNDLE

/-- Rule 6 (source lines 81-84): path of the reset stylesheet. -/
def rule6 (html : JSString) : JSString := replaceStr html RESET RESETMIN

/-- Rule 7 (source lines 85-88): path of the main stylesheet. -/
def rule7 (html : JSString) : JSString := replaceStr html STYLES STYLESMIN

/-- Rule 8 (source lines 91-94): path of the font. -/
def rule8 (html : JSString) : JSString := replaceStr html FONT FONTMIN

/-- The text written to `dist/index.html`: the eight rewrites in source order. -/
def transform (html : JSString) : JSString :=
  rule8 (rule7 (rule6 (rule5 (rule4 (rule3 (rule2 (rule1 html)))))))

/-- The two texts the build derives from `index.html`: the content of
`src/app.js` and the content of `dist/index.html`. -/
def build (html : JSString) : JSString × JSString :=
  (scriptContent html, transform html)

/-- The end-to-end scenario document of the specification. -/
def endToEnd : JSString :=
  js "<html><head><title>T</title><link href=\"reset.css\"><link href=\"styles.css\"></head><body><script src=\"vendors/babel.min.js\"></script><script src=\"vendors/react-with-dom.js\"></script><script type=\"text/babel\">const x=1;</script></body></html>"

/-! ## Parts of the literals and sample documents -/

/-- The line break and indentation between the tags of a template literal. -/
def SEP : JSString := js "\n       "

/-- First preload hint of rule 4's replacement text. -/
def LINK_BUNDLE : JSString := js "<link rel=\"preload\" href=\"./bundle.min.js\" as=\"script\">"

/-- Second preload hint of rule 4's replacement text. -/
def LINK_STYLES : JSString := js "<link rel=\"preload\" href=\"./styles.min.css\" as=\"style\">"

/-- Third preload hint of rule 4's replacement text. -/
def LINK_FONT : JSString :=
  js "<link rel=\"preload\" href=\"./lato.woff2\" as=\"font\" crossorigin>"

/-- The script tag rule 5 puts in front of the body-closing tag. -/
def BUNDLE_TAG : JSString := js "<script src=\"./bundle.min.js\"></script>"

/-- Title-opening tag. -/
def TITLE_OPEN : JSString := js "<title>"

/-- The end-to-end document up to its inline script block. -/
def e2eBefore : JSString :=
  js "<html><head><title>T</title><link href=\"reset.css\"><link href=\"styles.css\"></head><body><script src=\"vendors/babel.min.js\"></script><script src=\"vendors/react-with-dom.js\"></script>"

/-- The text inside the inline script block of the end-to-end document. -/
def e2eInterior : JSString := js "const x=1;"

/-- The end-to-end document after its inline script block. -/
def e2eAfter : JSString := js "</body></html>"

/-- The end-to-end document after the two deletions (rules 1 and 2), up to its
reference to the reset stylesheet. -/
def e2eResetLeft : JSString := js "<html><head><title>T</title><link "

/-- The end-to-end document after the two deletions (rules 1 and 2), from its
reference to the reset stylesheet on. -/
def e2eResetRight : JSString :=
  js "><link href=\"styles.css\"></head><body><script src=\"vendors/react-with-dom.js\"></script></body></html>"

/-- The end-to-end document after the two deletions (rules 1 and 2), up to its title element. -/
def e2eTitleLeft : JSString := js "<html><head>"

/-- The end-to-end document after the two deletions (rules 1 and 2), after its title element. -/
def e2eTitleRight : JSString :=
  js "<link href=\"reset.css\"><link href=\"styles.css\"></head><body><script src=\"vendors/react-with-dom.js\"></script></body></html>"

/-- A document without any `text/babel` script block. -/
def noMarkerDoc : JSString :=
  js "<html><body><h1>Hello</h1><script>var a=1;</script></body></html>"

/-- A document with one inline script block whose removal joins the two halves
of an opening marker. -/
def spliceDoc : JSString :=
  js "<script type=\"te<script type=\"text/babel\">X</script>xt/babel\">"

/-- A document with the same title element twice. -/
def twoTitles : JSString := js "<title>X</title><title>X</title>"

/-- A document that links the reset stylesheet twice. -/
def twoResets : JSString := js "<link href=\"reset.css\"><link href=\"reset.css\">"

/-- A run of string rewrites applied in order; `transform` is rule 1 followed by
such a run (see `transform_eq`). -/
def applyRules (rules : List (JSString × JSString)) (s : JSString) : JSString :=
  rules.foldl (fun acc pr => replaceStr acc pr.1 pr.2) s

/-! ## Occurrence checks

Executable checks on pairs of literals, evaluated on the literals of the
script to show that a pattern cannot overlap a piece of text. -/

/-- The text `q` occurs in `m`. -/
def occurs (q m : JSString) : Bool := (findFrom q m).isSome

/-- Number of occurrences of `q` in `m` (offsets at which `q` starts). -/
def countOcc (q m : JSString) : Nat := (m.tails.filter fun t => q.isPrefixOf t).length

/-- No nonempty suffix of `q` is a prefix of `m`: an occurrence of `q` cannot
end inside `m` after starting before it. -/
def overlapFree (q m : JSString) : Bool :=
  q.tails.all fun x => x.isEmpty || !x.isPrefixOf m

/-- An occurrence of `q` in `l ++ m` cannot reach into `m`. -/
def endFree (q m : JSString) : Bool := overlapFree q m && !occurs q m

/-- An occurrence of `q` in `m ++ r` cannot start inside `m`. -/
def startFree (q m : JSString) : Bool := overlapFree m q && !occurs q m

/-- The texts `q` and `m` cannot overlap: in `l ++ m ++ r` every occurrence of
`q` lies inside `l` or inside `r`, and symmetrically. -/
def apart (q m : JSString) : Bool :=
  overlapFree q m && overlapFree m q && !occurs q m && !occurs m q

/-- A text has no border: none of its occurrences can overlap another one. -/
def unbordered (p : JSString) : Bool := endFree p p.dropLast

/-- The text `m` is shielded from `q`: wherever `m` stands, every occurrence of
`q` in the surrounding text lies entirely before it or entirely after it. -/
def Shielded (q m : JSString) : Prop :=
  ∀ l r : JSString, q <:+: l ++ m ++ r → q <:+: l ∨ q <:+: r

end EsbuildConfig

namespace EsbuildConfig

set_option maxRecDepth 1000000

/-! ## Searching for a literal -/

theorem findFrom_eq_none_iff (p s : JSString) : findFrom p s = none ↔ ¬ p <:+: s := by
  induction s with
  | nil =>
    cases p with
    | nil => simp [findFrom]
    | cons a p => simp [findFrom, List.isPrefixOf]
  | cons c t ih =>
    rw [List.infix_cons_iff]
    by_cases h : p <+: c :: t
    · have hb : p.isPrefixOf (c :: t) = true := List.isPrefixOf_iff_prefix.mpr h
      simp [findFrom, hb, h]
    · have hb : p.isPrefixOf (c :: t) = false := by
        rw [← Bool.not_eq_true, List.isPrefixOf_iff_prefix]; exact h
      simp [findFrom, hb, h, ih]

theorem occurs_iff (p s : JSString) : occurs p s = true ↔ p <:+: s := by
  unfold occurs
  rw [← not_iff_not, ← findFrom_eq_none_iff]
  cases findFrom p s <;> simp

theorem occurs_eq_false_iff (p s : JSString) : occurs p s = false ↔ ¬ p <:+: s := by
  rw [← occurs_iff]; simp

theorem findFrom_at_head (p s : JSString) (h : p <+: s) : findFrom p s = some 0 := by
  have hb : p.isPrefixOf s = true := List.isPrefixOf_iff_prefix.mpr h
  cases s with
  | nil => simp [findFrom, hb]
  | cons c t => simp [findFrom, hb]

theorem findFrom_cons_skip (p : JSString) (c : Nat) (t : JSString)
    (h : ¬ p <+: c :: t) : findFrom p (c :: t) = (findFrom p t).map (· + 1) := by
  have hb : p.isPrefixOf (c :: t) = false := by
    rw [← Bool.not_eq_true, List.isPrefixOf_iff_prefix]; exact h
  simp [findFrom, hb]

theorem findFrom_append_first (p l r : JSString) (h : ¬ p <:+: l ++ p.dropLast) :
    findFrom p (l ++ p ++ r) = some l.length := by
  have hp : p ≠ [] := by
    rintro rfl
    exact h ⟨l, [], by simp⟩
  induction l with
  | nil =>
    rw [List.nil_append, List.length_nil]
    exact findFrom_at_head p (p ++ r) ⟨r, rfl⟩
  | cons c l ih =>
    have hlen : p.length ≤ (c :: l ++ p.dropLast).length := by
      have := List.length_pos.mpr hp
      simp only [List.length_append, List.length_cons, List.length_dropLast]
      omega
    have hnot : ¬ p <+: c :: (l ++ p ++ r) := by
      intro hpre
      apply h
      apply List.IsPrefix.isInfix
      refine List.prefix_of_prefix_length_le hpre ?_ hlen
      have hd : p.dropLast <+: p := List.dropLast_prefix p
      obtain ⟨u, hu⟩ := hd
      refine ⟨u ++ r, ?_⟩
      simp only [List.cons_append, List.append_assoc]
      rw [← List.append_assoc p.dropLast u r, hu]
    have ih' := ih (fun hin => h (by
      rw [List.cons_append, List.infix_cons_iff]; exact Or.inr hin))
    have hc : c :: l ++ p ++ r = c :: (l ++ p ++ r) := by simp
    rw [hc, findFrom_cons_skip p c _ hnot, ih']
    simp

theorem findFrom_some_split (p s : JSString) (hp : p ≠ []) (i : Nat)
    (h : findFrom p s = some i) :
    ∃ l r, s = l ++ p ++ r ∧ l.length = i ∧ ¬ p <:+: l ++ p.dropLast := by
  induction s generalizing i with
  | nil =>
    cases p with
    | nil => exact absurd rfl hp
    | cons a p' => simp [findFrom, List.isPrefixOf] at h
  | cons c t ih =>
    by_cases hpre : p <+: c :: t
    · have hb : p.isPrefixOf (c :: t) = true := List.isPrefixOf_iff_prefix.mpr hpre
      simp only [findFrom, hb, if_true, Option.some.injEq] at h
      obtain ⟨r, hr⟩ := hpre
      refine ⟨[], r, by simpa using hr.symm, by simpa using h, ?_⟩
      intro hin
      have h1 := hin.length_le
      have h2 := List.length_pos.mpr hp
      simp only [List.nil_append, List.length_dropLast] at h1
      omega
    · have hb : p.isPrefixOf (c :: t) = false := by
        rw [← Bool.not_eq_true, List.isPrefixOf_iff_prefix]; exact hpre
      simp only [findFrom, hb, Bool.false_eq_true, if_false, Option.map_eq_some'] at h
      obtain ⟨j, hj, hji⟩ := h
      obtain ⟨l, r, hs, hl, hfirst⟩ := ih j hj
      refine ⟨c :: l, r, by simp [hs], by simp [hl, hji], ?_⟩
      rw [List.cons_append, List.infix_cons_iff]
      rintro (hpre' | hin)
      · apply hpre
        refine hpre'.trans ?_
        obtain ⟨u, hu⟩ := List.dropLast_prefix p
        refine ⟨u ++ r, ?_⟩
        rw [hs]
        simp only [List.cons_append, List.append_assoc]
        rw [← List.append_assoc p.dropLast u r, hu]
      · exact hfirst hin

/-! ## Replacing the first occurrence -/

theorem replaceStr_absent (s p rep : JSString) (h : ¬ p <:+: s) :
    replaceStr s p rep = s := by
  unfold replaceStr
  rw [(findFrom_eq_none_iff p s).mpr h]

theorem replaceStr_first (l p r rep : JSString) (h : ¬ p <:+: l ++ p.dropLast) :
    replaceStr (l ++ p ++ r) p rep = l ++ rep ++ r := by
  unfold replaceStr
  rw [findFrom_append_first p l r h]
  have h1 : List.take l.length (l ++ p ++ r) = l := by
    rw [List.append_assoc]; exact List.take_left' rfl
  have h2 : List.drop (l.length + p.length) (l ++ p ++ r) = r := by
    rw [← List.length_append]; exact List.drop_left' rfl
  simp only [h1, h2]

theorem replaceStr_cases (s p rep : JSString) (hp : p ≠ []) :
    (¬ p <:+: s ∧ replaceStr s p rep = s) ∨
    ∃ l r, s = l ++ p ++ r ∧ ¬ p <:+: l ++ p.dropLast ∧ replaceStr s p rep = l ++ rep ++ r := by
  by_cases h : p <:+: s
  · right
    cases hf : findFrom p s with
    | none => exact absurd h ((findFrom_eq_none_iff p s).mp hf)
    | some i =>
      obtain ⟨l, r, hs, _, hfirst⟩ := findFrom_some_split p s hp i hf
      exact ⟨l, r, hs, hfirst, by rw [hs]; exact replaceStr_first l p r rep hfirst⟩
  · exact Or.inl ⟨h, replaceStr_absent s p rep h⟩

/-! ## Texts that cannot overlap -/

theorem overlapFree_spec (q m x : JSString) (h : overlapFree q m = true) (hx : x ≠ [])
    (hs : x <:+ q) (hpre : x <+: m) : False := by
  unfold overlapFree at h
  rw [List.all_eq_true] at h
  have h1 := h x ((List.mem_tails x q).mpr hs)
  have h2 : x.isPrefixOf m = true := List.isPrefixOf_iff_prefix.mpr hpre
  cases x with
  | nil => exact hx rfl
  | cons a x => simp [h2] at h1

theorem infix_left_of_endFree (q m l : JSString) (h : endFree q m = true)
    (hin : q <:+: l ++ m) : q <:+: l := by
  unfold endFree at h
  simp only [Bool.and_eq_true, Bool.not_eq_true'] at h
  obtain ⟨hov, hocc⟩ := h
  have hnm : ¬ q <:+: m := (occurs_eq_false_iff q m).mp hocc
  obtain ⟨a, b, hab⟩ := hin
  rw [List.append_assoc, List.append_eq_append_iff] at hab
  rcases hab with ⟨a', hl, hqb⟩ | ⟨c', ha, hm⟩
  · rw [List.append_eq_append_iff] at hqb
    rcases hqb with ⟨x, ha', _⟩ | ⟨c, hq, hm⟩
    · exact ⟨a, x, by rw [hl, ha', List.append_assoc]⟩
    · by_cases hc : c = []
      · subst hc
        rw [List.append_nil] at hq
        exact ⟨a, [], by rw [hl, hq, List.append_nil]⟩
      · exact absurd (overlapFree_spec q m c hov hc ⟨a', hq.symm⟩ ⟨b, hm.symm⟩) id
  · exact absurd ⟨c', b, by rw [hm, List.append_assoc]⟩ hnm

theorem infix_right_of_startFree (q m r : JSString) (h : startFree q m = true)
    (hin : q <:+: m ++ r) : q <:+: r := by
  unfold startFree at h
  simp only [Bool.and_eq_true, Bool.not_eq_true'] at h
  obtain ⟨hov, hocc⟩ := h
  have hnm : ¬ q <:+: m := (occurs_eq_false_iff q m).mp hocc
  obtain ⟨a, b, hab⟩ := hin
  rw [List.append_assoc, List.append_eq_append_iff] at hab
  rcases hab with ⟨a', hm, hqb⟩ | ⟨c', ha, hr⟩
  · rw [List.append_eq_append_iff] at hqb
    rcases hqb with ⟨x, ha', _⟩ | ⟨c, hq, hr⟩
    · exact absurd ⟨a, x, by rw [hm, ha', List.append_assoc]⟩ hnm
    · by_cases ha' : a' = []
      · subst ha'
        rw [List.nil_append] at hq
        exact ⟨[], b, by rw [hr, hq, List.nil_append]⟩
      · exact absurd (overlapFree_spec m q a' hov ha' ⟨a, hm.symm⟩ ⟨c, hq.symm⟩) id
  · exact ⟨c', b, by rw [hr, List.append_assoc]⟩

theorem endFree_of_apart (q m : JSString) (h : apart q m = true) : endFree q m = true := by
  unfold apart at h
  unfold endFree
  simp only [Bool.and_eq_true, Bool.not_eq_true'] at h ⊢
  exact ⟨h.1.1.1, h.1.2⟩

theorem startFree_of_apart (q m : JSString) (h : apart q m = true) :
    startFree q m = true := by
  unfold apart at h
  unfold startFree
  simp only [Bool.and_eq_true, Bool.not_eq_true'] at h ⊢
  exact ⟨h.1.1.2, h.1.2⟩

theorem infix_of_apart (q m l r : JSString) (h : apart q m = true)
    (hin : q <:+: l ++ m ++ r) : q <:+: l ∨ q <:+: r := by
  have hmq : ¬ m <:+: q := by
    unfold apart at h
    simp only [Bool.and_eq_true, Bool.not_eq_true'] at h
    exact (occurs_eq_false_iff m q).mp h.2
  obtain ⟨a, b, hab⟩ := hin
  rw [List.append_assoc a q b, List.append_eq_append_iff] at hab
  rcases hab with ⟨a', hlm, hqb⟩ | ⟨c', ha, hr⟩
  · rw [List.append_eq_append_iff] at hqb
    rcases hqb with ⟨x, ha', _⟩ | ⟨c, hq, hr⟩
    · left
      apply infix_left_of_endFree q m l (endFree_of_apart q m h)
      exact ⟨a, x, by rw [hlm, ha', List.append_assoc]⟩
    · by_cases ha' : a' = []
      · subst ha'
        rw [List.nil_append] at hq
        exact Or.inr ⟨[], b, by rw [hr, hq, List.nil_append]⟩
      · rw [List.append_eq_append_iff] at hlm
        rcases hlm with ⟨y, _, hm⟩ | ⟨y, hl, ha2⟩
        · unfold apart at h
          simp only [Bool.and_eq_true, Bool.not_eq_true'] at h
          exact absurd (overlapFree_spec m q a' h.1.1.2 ha' ⟨y, hm.symm⟩ ⟨c, hq.symm⟩) id
        · exact absurd ⟨y, c, by rw [hq, ha2, List.append_assoc]⟩ hmq
  · exact Or.inr ⟨c', b, by rw [hr, List.append_assoc]⟩

theorem shielded_of_apart (q m : JSString) (h : apart q m = true) : Shielded q m :=
  fun l r hin => infix_of_apart q m l r h hin

theorem not_infix_append_dropLast (p l : JSString) (hu : unbordered p = true)
    (h : ¬ p <:+: l) : ¬ p <:+: l ++ p.dropLast :=
  fun hin => h (infix_left_of_endFree p p.dropLast l hu hin)

/-- With an unbordered pattern, the occurrence after a text free of the
pattern is the first one. -/
theorem replaceStr_first_of_unbordered (l p r rep : JSString) (hu : unbordered p = true)
    (h : ¬ p <:+: l) : replaceStr (l ++ p ++ r) p rep = l ++ rep ++ r :=
  replaceStr_first l p r rep (not_infix_append_dropLast p l hu h)

theorem infix_append_of_left {q l : JSString} (r : JSString) (h : q <:+: l) : q <:+: l ++ r :=
  h.trans (List.prefix_append l r).isInfix

theorem infix_append_of_right {q r : JSString} (l : JSString) (h : q <:+: r) : q <:+: l ++ r :=
  h.trans (List.suffix_append l r).isInfix

/-- A text shielded from the pattern survives the replacement. -/
theorem infix_replaceStr (m s p rep : JSString) (hp : p ≠ []) (h : Shielded m p)
    (hm : m <:+: s) : m <:+: replaceStr s p rep := by
  rcases replaceStr_cases s p rep hp with ⟨_, he⟩ | ⟨l, r, hs, _, he⟩
  · rw [he]; exact hm
  · rw [he]
    rw [hs] at hm
    rcases h l r hm with h1 | h1
    · exact infix_append_of_left r (infix_append_of_left rep h1)
    · exact infix_append_of_right (l ++ rep) h1

/-- A replacement text that cannot overlap `q` does not bring `q` in. -/
theorem not_infix_replaceStr (q s p rep : JSString) (hp : p ≠ []) (h : Shielded q rep)
    (hq : ¬ q <:+: s) : ¬ q <:+: replaceStr s p rep := by
  rcases replaceStr_cases s p rep hp with ⟨_, he⟩ | ⟨l, r, hs, _, he⟩
  · rw [he]; exact hq
  · rw [he]
    intro hin
    apply hq
    rw [hs]
    rcases h l r hin with h1 | h1
    · exact infix_append_of_left r (infix_append_of_left p h1)
    · exact infix_append_of_right (l ++ p) h1

/-- A replacement leaves a shielded text where it is and rewrites the side
that holds the first occurrence of the pattern. -/
theorem replaceStr_around (l m r p rep : JSString) (hp : p ≠ []) (h : Shielded p m) :
    (p <:+: l ∧ replaceStr (l ++ m ++ r) p rep = replaceStr l p rep ++ m ++ r) ∨
    (¬ p <:+: l ∧ replaceStr (l ++ m ++ r) p rep = l ++ m ++ replaceStr r p rep) := by
  by_cases hl : p <:+: l
  · left
    refine ⟨hl, ?_⟩
    rcases replaceStr_cases l p rep hp with ⟨hn, _⟩ | ⟨a, b, hs, hfirst, he⟩
    · exact absurd hl hn
    · rw [he, hs]
      have : a ++ p ++ b ++ m ++ r = a ++ p ++ (b ++ m ++ r) := by simp
      rw [this, replaceStr_first a p _ rep hfirst]
      simp
  · right
    refine ⟨hl, ?_⟩
    rcases replaceStr_cases r p rep hp with ⟨hn, he⟩ | ⟨a, b, hs, hfirst, he⟩
    · rw [he]
      apply replaceStr_absent
      intro hin
      rcases h l r hin with h1 | h1
      · exact hl h1
      · exact hn h1
    · rw [he, hs]
      have e1 : l ++ m ++ (a ++ p ++ b) = (l ++ m ++ a) ++ p ++ b := by simp
      rw [e1, replaceStr_first (l ++ m ++ a) p b rep]
      · simp
      · intro hin
        have e2 : l ++ m ++ a ++ p.dropLast = l ++ m ++ (a ++ p.dropLast) := by simp
        rw [e2] at hin
        rcases h l _ hin with h1 | h1
        · exact hl h1
        · exact hfirst h1

/-! ## The regular expression of rule 1 -/

theorem matchHere_lits (p : JSString) (rest : List Item) (xs : JSString) :
    matchHere (p.map Item.ch ++ rest) xs =
      if p.isPrefixOf xs then (matchHere rest (xs.drop p.length)).map (· + p.length)
      else none := by
  induction p generalizing xs with
  | nil => simp
  | cons a p ih =>
    cases xs with
    | nil => simp [matchHere, List.isPrefixOf]
    | cons x xs =>
      have hm : matchHere ((a :: p).map Item.ch ++ rest) (x :: xs) =
          if x = a then (matchHere (p.map Item.ch ++ rest) xs).map (· + 1) else none := by
        simp [matchHere]
      rw [hm, ih]
      by_cases hxa : x = a
      · subst hxa
        by_cases hpre : p.isPrefixOf xs = true
        · simp [List.isPrefixOf, hpre, Option.map_map, Function.comp_def, Nat.add_assoc]
        · simp [List.isPrefixOf, hpre]
      · have hax : (a == x) = false := by
          rw [beq_eq_false_iff_ne]; exact fun h => hxa h.symm
        simp [List.isPrefixOf, hxa, hax]

theorem lazyStar_lits (q : JSString) (xs : JSString) :
    lazyStar (matchHere (q.map Item.ch)) xs = (findFrom q xs).map (· + q.length) := by
  have hk : ∀ ys, matchHere (q.map Item.ch) ys =
      if q.isPrefixOf ys then some q.length else none := by
    intro ys
    have := matchHere_lits q [] ys
    simpa [matchHere] using this
  induction xs with
  | nil =>
    simp only [lazyStar, hk, findFrom]
    split <;> simp
  | cons x xs ih =>
    by_cases hpre : q.isPrefixOf (x :: xs) = true
    · simp [lazyStar, hk, findFrom, hpre]
    · simp only [lazyStar, hk, findFrom, hpre, ih, Option.map_map, Function.comp_def,
        if_false, Bool.false_eq_true]
      congr 1
      funext n
      omega

theorem matchHere_lits_lazy_lits (p q xs : JSString) :
    matchHere (p.map Item.ch ++ [Item.lazyAny] ++ q.map Item.ch) xs =
      if p.isPrefixOf xs then
        (findFrom q (xs.drop p.length)).map (· + q.length + p.length)
      else none := by
  rw [List.append_assoc, matchHere_lits]
  have hl : ∀ ys, matchHere ([Item.lazyAny] ++ q.map Item.ch) ys =
      lazyStar (matchHere (q.map Item.ch)) ys := by
    intro ys
    simp [matchHere]
  by_cases hpre : p.isPrefixOf xs = true
  · rw [if_pos hpre, if_pos hpre, hl, lazyStar_lits, Option.map_map]
    rfl
  · rw [if_neg hpre, if_neg hpre]

/-- What rule 1's expression matches at the head of a text: the opening marker,
then everything up to and including the first closing marker after it. -/
theorem matchHere_blockRegex (xs : JSString) :
    matchHere blockRegex xs =
      if OPEN.isPrefixOf xs then
        (findFrom CLOSE (xs.drop OPEN.length)).map (· + CLOSE.length + OPEN.length)
      else none :=
  matchHere_lits_lazy_lits OPEN CLOSE xs

theorem regexSearch_of_match (re : List Item) (s : JSString) (n : Nat)
    (h : matchHere re s = some n) : regexSearch re s = some (0, n) := by
  cases s with
  | nil => simp [regexSearch, h]
  | cons x xs => simp [regexSearch, h]

theorem regexSearch_cons_of_no_match (re : List Item) (x : Nat) (xs : JSString)
    (h : matchHere re (x :: xs) = none) :
    regexSearch re (x :: xs) = (regexSearch re xs).map (fun r => (r.1 + 1, r.2)) := by
  simp [regexSearch, h]

theorem unbordered_OPEN : unbordered OPEN = true := by decide

theorem unbordered_CLOSE : unbordered CLOSE = true := by decide

/-- In a document whose first opening marker is followed by a closing marker,
rule 1's expression matches from that opening marker to the first closing
marker after it. -/
theorem regexSearch_block (before interior after : JSString)
    (hb : ¬ OPEN <:+: before) (hi : ¬ CLOSE <:+: interior) :
    regexSearch blockRegex (before ++ OPEN ++ interior ++ CLOSE ++ after) =
      some (before.length, OPEN.length + interior.length + CLOSE.length) := by
  induction before with
  | nil =>
    apply regexSearch_of_match
    rw [matchHere_blockRegex]
    have hpre : OPEN.isPrefixOf ([] ++ OPEN ++ interior ++ CLOSE ++ after) = true := by
      rw [List.isPrefixOf_iff_prefix]
      exact ⟨interior ++ CLOSE ++ after, by simp⟩
    have hdrop : List.drop OPEN.length ([] ++ OPEN ++ interior ++ CLOSE ++ after) =
        interior ++ CLOSE ++ after := by
      have : [] ++ OPEN ++ interior ++ CLOSE ++ after = OPEN ++ (interior ++ CLOSE ++ after) := by
        simp
      rw [this]
      exact List.drop_left' rfl
    rw [if_pos hpre, hdrop,
      findFrom_append_first CLOSE interior after
        (not_infix_append_dropLast CLOSE interior unbordered_CLOSE hi)]
    simp only [Option.map_some', List.length_nil, Option.some.injEq, Prod.mk.injEq, true_and]
    omega
  | cons c b ih =>
    have hb' : ¬ OPEN <:+: b := fun h => hb (by
      rw [List.infix_cons_iff]; exact Or.inr h)
    have hs : c :: b ++ OPEN ++ interior ++ CLOSE ++ after =
        c :: (b ++ OPEN ++ interior ++ CLOSE ++ after) := by simp
    have hnp : ¬ OPEN <+: c :: b ++ OPEN ++ interior ++ CLOSE ++ after := by
      intro hpre
      have h0 := findFrom_at_head OPEN _ hpre
      have e : c :: b ++ OPEN ++ interior ++ CLOSE ++ after =
          (c :: b) ++ OPEN ++ (interior ++ CLOSE ++ after) := by simp
      rw [e, findFrom_append_first OPEN (c :: b) _
        (not_infix_append_dropLast OPEN (c :: b) unbordered_OPEN hb)] at h0
      simp at h0
    have hm : matchHere blockRegex (c :: (b ++ OPEN ++ interior ++ CLOSE ++ after)) = none := by
      rw [matchHere_blockRegex]
      rw [← hs]
      have : OPEN.isPrefixOf (c :: b ++ OPEN ++ interior ++ CLOSE ++ after) = false := by
        rw [← Bool.not_eq_true, List.isPrefixOf_iff_prefix]; exact hnp
      rw [this]
      rfl
    rw [hs, regexSearch_cons_of_no_match _ _ _ hm, ih hb']
    simp

/-- Rule 1 on a document with an inline script block: the block is cut out. -/
theorem rule1_block (before interior after : JSString)
    (hb : ¬ OPEN <:+: before) (hi : ¬ CLOSE <:+: interior) :
    rule1 (before ++ OPEN ++ interior ++ CLOSE ++ after) = before ++ after := by
  unfold rule1 replaceRegex
  rw [regexSearch_block before interior after hb hi]
  have h1 : List.take before.length (before ++ OPEN ++ interior ++ CLOSE ++ after) = before := by
    have : before ++ OPEN ++ interior ++ CLOSE ++ after =
        before ++ (OPEN ++ interior ++ CLOSE ++ after) := by simp
    rw [this]
    exact List.take_left' rfl
  have h2 : List.drop (before.length + (OPEN.length + interior.length + CLOSE.length))
      (before ++ OPEN ++ interior ++ CLOSE ++ after) = after := by
    apply List.drop_left'
    simp only [List.length_append]
    omega
  simp only [h1, h2, List.append_nil]

/-! ## Runs of rewrites -/

theorem applyRules_cons (p rep : JSString) (rules : List (JSString × JSString))
    (s : JSString) :
    applyRules ((p, rep) :: rules) s = applyRules rules (replaceStr s p rep) := rfl

/-- A text that no pattern of the run can overlap survives the run. -/
theorem infix_applyRules (m : JSString) (rules : List (JSString × JSString))
    (hne : ∀ pr ∈ rules, pr.1 ≠ []) (hsh : ∀ pr ∈ rules, Shielded m pr.1)
    (s : JSString) (hm : m <:+: s) : m <:+: applyRules rules s := by
  induction rules generalizing s with
  | nil => exact hm
  | cons pr rules ih =>
    obtain ⟨p, rep⟩ := pr
    rw [applyRules_cons]
    apply ih (fun x hx => hne x (List.mem_cons_of_mem _ hx))
      (fun x hx => hsh x (List.mem_cons_of_mem _ hx))
    exact infix_replaceStr m s p rep (hne (p, rep) (List.mem_cons_self _ _))
      (hsh (p, rep) (List.mem_cons_self _ _)) hm

/-- A text that no replacement of the run can overlap is not brought in by the run. -/
theorem not_infix_applyRules (q : JSString) (rules : List (JSString × JSString))
    (hne : ∀ pr ∈ rules, pr.1 ≠ []) (hsh : ∀ pr ∈ rules, Shielded q pr.2)
    (s : JSString) (hq : ¬ q <:+: s) : ¬ q <:+: applyRules rules s := by
  induction rules generalizing s with
  | nil => exact hq
  | cons pr rules ih =>
    obtain ⟨p, rep⟩ := pr
    rw [applyRules_cons]
    apply ih (fun x hx => hne x (List.mem_cons_of_mem _ hx))
      (fun x hx => hsh x (List.mem_cons_of_mem _ hx))
    exact not_infix_replaceStr q s p rep (hne (p, rep) (List.mem_cons_self _ _))
      (hsh (p, rep) (List.mem_cons_self _ _)) hq

/-- A run of rewrites around a text `m` that no pattern of the run can overlap:
`m` stays in place, and what the run makes of the two sides does not depend on
`m`.  A text that no replacement can overlap is not brought into either side. -/
theorem applyRules_sides (rules : List (JSString × JSString))
    (hne : ∀ pr ∈ rules, pr.1 ≠ []) (l r : JSString) :
    ∃ l' r',
      (∀ q, (∀ pr ∈ rules, Shielded q pr.2) →
        (¬ q <:+: l → ¬ q <:+: l') ∧ (¬ q <:+: r → ¬ q <:+: r')) ∧
      ∀ m, (∀ pr ∈ rules, Shielded pr.1 m) →
        applyRules rules (l ++ m ++ r) = l' ++ m ++ r' := by
  induction rules generalizing l r with
  | nil => exact ⟨l, r, fun _ _ => ⟨id, id⟩, fun _ _ => rfl⟩
  | cons pr rules ih =>
    obtain ⟨p, rep⟩ := pr
    have hp : p ≠ [] := hne (p, rep) (List.mem_cons_self _ _)
    have hne' : ∀ x ∈ rules, x.1 ≠ [] := fun x hx => hne x (List.mem_cons_of_mem _ hx)
    by_cases hl : p <:+: l
    · obtain ⟨l', r', hinv, heq⟩ := ih hne' (replaceStr l p rep) r
      refine ⟨l', r', ?_, ?_⟩
      · intro q hq
        have h1 := hinv q (fun x hx => hq x (List.mem_cons_of_mem _ hx))
        refine ⟨fun hql => h1.1 ?_, h1.2⟩
        exact not_infix_replaceStr q l p rep hp (hq (p, rep) (List.mem_cons_self _ _)) hql
      · intro m hm
        rw [applyRules_cons]
        rcases replaceStr_around l m r p rep hp (hm (p, rep) (List.mem_cons_self _ _)) with
          ⟨_, he⟩ | ⟨hn, _⟩
        · rw [he]
          exact heq m (fun x hx => hm x (List.mem_cons_of_mem _ hx))
        · exact absurd hl hn
    · obtain ⟨l', r', hinv, heq⟩ := ih hne' l (replaceStr r p rep)
      refine ⟨l', r', ?_, ?_⟩
      · intro q hq
        have h1 := hinv q (fun x hx => hq x (List.mem_cons_of_mem _ hx))
        refine ⟨h1.1, fun hqr => h1.2 ?_⟩
        exact not_infix_replaceStr q r p rep hp (hq (p, rep) (List.mem_cons_self _ _)) hqr
      · intro m hm
        rw [applyRules_cons]
        rcases replaceStr_around l m r p rep hp (hm (p, rep) (List.mem_cons_self _ _)) with
          ⟨hn, _⟩ | ⟨_, he⟩
        · exact absurd hn hl
        · rw [he]
          exact heq m (fun x hx => hm x (List.mem_cons_of_mem _ hx))

theorem shielded_patterns_of_all (m : JSString) (rules : List (JSString × JSString))
    (h : rules.all (fun pr => apart pr.1 m) = true) : ∀ pr ∈ rules, Shielded pr.1 m := by
  intro pr hpr
  rw [List.all_eq_true] at h
  exact shielded_of_apart _ _ (h pr hpr)

theorem shielded_by_patterns_of_all (m : JSString) (rules : List (JSString × JSString))
    (h : rules.all (fun pr => apart m pr.1) = true) : ∀ pr ∈ rules, Shielded m pr.1 := by
  intro pr hpr
  rw [List.all_eq_true] at h
  exact shielded_of_apart _ _ (h pr hpr)

theorem shielded_by_replacements_of_all (q : JSString) (rules : List (JSString × JSString))
    (h : rules.all (fun pr => apart q pr.2) = true) : ∀ pr ∈ rules, Shielded q pr.2 := by
  intro pr hpr
  rw [List.all_eq_true] at h
  exact shielded_of_apart _ _ (h pr hpr)

theorem patterns_ne_nil_of_all (rules : List (JSString × JSString))
    (h : rules.all (fun pr => !pr.1.isEmpty) = true) : ∀ pr ∈ rules, pr.1 ≠ [] := by
  intro pr hpr
  rw [List.all_eq_true] at h
  have := h pr hpr
  intro he
  simp [he] at this

/-- The document rewrite is rule 1 followed by the seven string rewrites. -/
theorem transform_eq (html : JSString) :
    transform html =
      applyRules [(BABEL, []), (REACT, CDN), (TITLE, PRELOAD), (BODY, BUNDLE),
        (RESET, RESETMIN), (STYLES, STYLESMIN), (FONT, FONTMIN)] (rule1 html) := rfl

/-! ## Facts about the literals -/

theorem endToEnd_eq : endToEnd = e2eBefore ++ OPEN ++ e2eInterior ++ CLOSE ++ e2eAfter := by
  decide

theorem PRELOAD_eq :
    PRELOAD = TITLE ++ SEP ++ LINK_BUNDLE ++ SEP ++ LINK_STYLES ++ SEP ++ LINK_FONT := by
  decide

theorem BUNDLE_eq : BUNDLE = BUNDLE_TAG ++ BODY := by decide

theorem SEP_whiteSpace : SEP.all isWhiteSpace = true := by decide

/-- The output of the end-to-end document. -/
theorem transform_endToEnd :
    transform endToEnd =
      js "<html><head><title>T</title>\n       <link rel=\"preload\" href=\"./bundle.min.js\" as=\"script\">\n       <link rel=\"preload\" href=\"./styles.min.css\" as=\"style\">\n       <link rel=\"preload\" href=\"./lato.woff2\" as=\"font\" crossorigin><link href=\"./reset.min.css\"><link href=\"./styles.min.css\"></head><body><script src=\"https://unpkg.com/react@18.2.0/umd/react.production.min.js\"></script>\n       <script src=\"https://unpkg.com/react-dom@18.2.0/umd/react-dom.production.min.js\"></script><script src=\"./bundle.min.js\"></script></body></html>" := by
  decide

/-- No replacement text contains a dollar sign: the substitution templates of
`replace` play no part. -/
theorem no_dollar :
    [CDN, PRELOAD, BUNDLE, RESETMIN, STYLESMIN, FONTMIN].all (fun t => !t.contains 36) = true := by
  decide

/-! ## Script extraction -/

/-- Without an opening marker `indexOf` answers `-1`, and the script goes on
with the offset `-1 + 27 = 26`: a payload is cut out all the same. -/
theorem scriptContent_of_no_marker (html : JSString) (h : ¬ OPEN <:+: html) :
    indexOf html OPEN 0 = -1 ∧ scriptStart html = 26 ∧
    scriptContent html = trim (substring html 26 (indexOf html CLOSE 26)) := by
  have h0 : indexOf html OPEN 0 = -1 := by
    unfold indexOf
    simp only [Int.toNat_zero, Nat.zero_min, List.drop_zero]
    rw [(findFrom_eq_none_iff OPEN html).mpr h]
  have h1 : scriptStart html = 26 := by
    unfold scriptStart
    rw [h0]
    rfl
  refine ⟨h0, h1, ?_⟩
  unfold scriptContent scriptEnd
  rw [h1]

/-- With an inline script block whose interior is `c :: rest`, the offset
`scriptStart` points one code unit past the end of the opening marker: the
payload is `rest` trimmed, the first code unit `c` of the interior is left out. -/
theorem scriptContent_block (before rest after : JSString) (c : Nat)
    (hb : ¬ OPEN <:+: before) (hi : ¬ CLOSE <:+: c :: rest) :
    scriptStart (before ++ OPEN ++ (c :: rest) ++ CLOSE ++ after) = (before.length + 27 : Nat) ∧
    scriptEnd (before ++ OPEN ++ (c :: rest) ++ CLOSE ++ after) =
      (before.length + 27 + rest.length : Nat) ∧
    scriptContent (before ++ OPEN ++ (c :: rest) ++ CLOSE ++ after) = trim rest := by
  have hO : OPEN.length = 26 := by decide
  have hr : ¬ CLOSE <:+: rest := fun h => hi (by
    rw [List.infix_cons_iff]; exact Or.inr h)
  have h0 : indexOf (before ++ OPEN ++ (c :: rest) ++ CLOSE ++ after) OPEN 0 =
      (before.length : Int) := by
    unfold indexOf
    simp only [Int.toNat_zero, Nat.zero_min, List.drop_zero]
    have e : before ++ OPEN ++ (c :: rest) ++ CLOSE ++ after =
        before ++ OPEN ++ ((c :: rest) ++ CLOSE ++ after) := by simp
    rw [e, findFrom_append_first OPEN before _
      (not_infix_append_dropLast OPEN before unbordered_OPEN hb)]
    simp
  have h1 : scriptStart (before ++ OPEN ++ (c :: rest) ++ CLOSE ++ after) =
      (before.length + 27 : Nat) := by
    unfold scriptStart
    rw [h0]
    push_cast
    rfl
  have hdrop : List.drop (before.length + 27)
      (before ++ OPEN ++ (c :: rest) ++ CLOSE ++ after) = rest ++ CLOSE ++ after := by
    have e : before ++ OPEN ++ (c :: rest) ++ CLOSE ++ after =
        (before ++ OPEN ++ [c]) ++ (rest ++ CLOSE ++ after) := by simp
    rw [e]
    apply List.drop_left'
    simp only [List.length_append, List.length_singleton, hO]
  have hlen : before.length + 27 + rest.length ≤
      (before ++ OPEN ++ (c :: rest) ++ CLOSE ++ after).length := by
    simp only [List.length_append, List.length_cons, hO]
    omega
  have h2 : scriptEnd (before ++ OPEN ++ (c :: rest) ++ CLOSE ++ after) =
      (before.length + 27 + rest.length : Nat) := by
    unfold scriptEnd indexOf
    rw [h1]
    simp only [Int.toNat_ofNat]
    rw [Nat.min_eq_left (by omega), hdrop,
      findFrom_append_first CLOSE rest after
        (not_infix_append_dropLast CLOSE rest unbordered_CLOSE hr)]
  refine ⟨h1, h2, ?_⟩
  unfold scriptContent substring
  rw [h1, h2]
  simp only [Int.toNat_ofNat]
  rw [Nat.min_eq_left (by omega : before.length + 27 ≤ _), Nat.min_eq_left hlen,
    Nat.min_eq_left (by omega : before.length + 27 ≤ before.length + 27 + rest.length),
    Nat.max_eq_right (by omega : before.length + 27 ≤ before.length + 27 + rest.length), hdrop]
  have e : before.length + 27 + rest.length - (before.length + 27) = rest.length := by omega
  rw [e, List.append_assoc, List.take_left' rfl]

/-- C1 (defect of the code). The end-to-end document has the form
`before ++ OPEN ++ interior ++ CLOSE ++ after` with interior `const x=1;`; the
opening marker is 26 code units long but the script adds 27, and the payload
it writes is `onst x=1;`, not the trimmed interior. -/
theorem scriptContent_endToEnd :
    endToEnd = e2eBefore ++ OPEN ++ e2eInterior ++ CLOSE ++ e2eAfter ∧
    (¬ OPEN <:+: e2eBefore) ∧ (¬ CLOSE <:+: e2eInterior) ∧
    trim e2eInterior = js "const x=1;" ∧
    OPEN.length = 26 ∧
    scriptStart endToEnd = indexOf endToEnd OPEN 0 + 27 ∧
    scriptContent endToEnd = js "onst x=1;" ∧
    scriptContent endToEnd ≠ trim e2eInterior := by
  decide

/-- C2 (defect of the code). `noMarkerDoc` holds no opening marker; `indexOf`
answers `-1`, the script goes on with the offsets 26 and 42 and writes the
payload `<script>var a=1;` instead of failing. -/
theorem scriptContent_noMarkerDoc :
    (¬ OPEN <:+: noMarkerDoc) ∧
    indexOf noMarkerDoc OPEN 0 = -1 ∧
    scriptStart noMarkerDoc = 26 ∧
    scriptEnd noMarkerDoc = 42 ∧
    scriptContent noMarkerDoc = js "<script>var a=1;" := by
  decide

/-! ## Rule 1 removes the inline script block -/

/-- C3. Rule 1 deletes exactly the inline script block: on a document
`before ++ OPEN ++ interior ++ CLOSE ++ after` whose `before` holds no opening
marker and whose `interior` holds no closing marker, rule 1 yields
`before ++ after`, and putting the opening marker, the interior and the closing
marker back between the two remaining pieces gives the input again. -/
theorem rule1_deletes_block (before interior after : JSString)
    (hb : ¬ OPEN <:+: before) (hi : ¬ CLOSE <:+: interior) :
    rule1 (before ++ OPEN ++ interior ++ CLOSE ++ after) = before ++ after ∧
    List.take before.length (rule1 (before ++ OPEN ++ interior ++ CLOSE ++ after)) ++ OPEN ++
        interior ++ CLOSE ++
        List.drop before.length (rule1 (before ++ OPEN ++ interior ++ CLOSE ++ after)) =
      before ++ OPEN ++ interior ++ CLOSE ++ after := by
  have h := rule1_block before interior after hb hi
  refine ⟨h, ?_⟩
  rw [h, List.take_left' rfl, List.drop_left' rfl]

/-- C3 on the end-to-end document. -/
theorem rule1_deletes_block_witness :
    (¬ OPEN <:+: e2eBefore) ∧ (¬ CLOSE <:+: e2eInterior) ∧
    rule1 (e2eBefore ++ OPEN ++ e2eInterior ++ CLOSE ++ e2eAfter) = e2eBefore ++ e2eAfter ∧
    List.take e2eBefore.length
        (rule1 (e2eBefore ++ OPEN ++ e2eInterior ++ CLOSE ++ e2eAfter)) ++ OPEN ++
        e2eInterior ++ CLOSE ++
        List.drop e2eBefore.length
          (rule1 (e2eBefore ++ OPEN ++ e2eInterior ++ CLOSE ++ e2eAfter)) =
      e2eBefore ++ OPEN ++ e2eInterior ++ CLOSE ++ e2eAfter :=
  ⟨by decide, by decide,
    rule1_deletes_block e2eBefore e2eInterior e2eAfter (by decide) (by decide)⟩

/-! ## No opening marker in the output -/

/-- C4, as stated, fails: `spliceDoc` holds exactly one opening marker, followed
by a closing marker, and its output is an opening marker. -/
theorem marker_left_in_output :
    countOcc OPEN spliceDoc = 1 ∧
    spliceDoc = js "<script type=\"te" ++ OPEN ++ js "X" ++ CLOSE ++ js "xt/babel\">" ∧
    transform spliceDoc = OPEN ∧
    countOcc OPEN (transform spliceDoc) = 1 := by
  decide

/-- C4, amended. On a document `before ++ OPEN ++ interior ++ CLOSE ++ after`
(no opening marker in `before`, no closing marker in `interior`) such that the
text left by the two deletions, `before ++ after` without its first
transpiler tag, holds no opening marker, the output holds no opening marker. -/
theorem no_marker_in_output (before interior after : JSString)
    (hb : ¬ OPEN <:+: before) (hi : ¬ CLOSE <:+: interior)
    (hs : ¬ OPEN <:+: rule2 (before ++ after)) :
    ¬ OPEN <:+: transform (before ++ OPEN ++ interior ++ CLOSE ++ after) := by
  rw [transform_eq, rule1_block before interior after hb hi, applyRules_cons]
  exact not_infix_applyRules OPEN _ (patterns_ne_nil_of_all _ (by decide))
    (shielded_by_replacements_of_all OPEN _ (by decide)) _ hs

/-- C4, amended, on the end-to-end document. -/
theorem no_marker_in_output_witness :
    (¬ OPEN <:+: e2eBefore) ∧ (¬ CLOSE <:+: e2eInterior) ∧
    (¬ OPEN <:+: rule2 (e2eBefore ++ e2eAfter)) ∧
    ¬ OPEN <:+: transform (e2eBefore ++ OPEN ++ e2eInterior ++ CLOSE ++ e2eAfter) :=
  ⟨by decide, by decide, by decide,
    no_marker_in_output e2eBefore e2eInterior e2eAfter (by decide) (by decide) (by decide)⟩

/-! ## Rule 3: the framework from the CDN -/

theorem countOcc_cons (q : JSString) (c : Nat) (t : JSString) :
    countOcc q (c :: t) = (if q.isPrefixOf (c :: t) then 1 else 0) + countOcc q t := by
  unfold countOcc
  rw [List.tails, List.filter_cons]
  split <;> simp [Nat.add_comm]

theorem countOcc_eq_zero (q s : JSString) (h : ¬ q <:+: s) : countOcc q s = 0 := by
  induction s with
  | nil =>
    have hq : q ≠ [] := by
      rintro rfl
      exact h ⟨[], [], rfl⟩
    cases q with
    | nil => exact absurd rfl hq
    | cons a q => simp [countOcc, List.isPrefixOf]
  | cons c t ih =>
    rw [List.infix_cons_iff] at h
    have hb : q.isPrefixOf (c :: t) = false := by
      rw [← Bool.not_eq_true, List.isPrefixOf_iff_prefix]
      exact fun hp => h (Or.inl hp)
    rw [countOcc_cons, hb, ih (fun hin => h (Or.inr hin))]
    rfl

/-- A text whose only place in `u ++ q ++ v` is after `u` occurs there exactly once. -/
theorem countOcc_eq_one_of_unique (q u v : JSString)
    (huniq : ∀ a c : JSString, a ++ q ++ c = u ++ q ++ v → a = u) :
    countOcc q (u ++ q ++ v) = 1 := by
  induction u with
  | nil =>
    cases q with
    | nil =>
      cases v with
      | nil => simp [countOcc]
      | cons b v =>
        have := huniq [b] v (by simp)
        simp at this
    | cons h q' =>
      have hs : [] ++ (h :: q') ++ v = h :: (q' ++ v) := by simp
      have hb : (h :: q').isPrefixOf (h :: (q' ++ v)) = true :=
        List.isPrefixOf_iff_prefix.mpr ⟨v, rfl⟩
      rw [hs, countOcc_cons, hb, countOcc_eq_zero]
      · rfl
      · rintro ⟨a, c, hac⟩
        have := huniq (h :: a) c (by rw [hs, ← hac]; simp)
        simp at this
  | cons h u ih =>
    have hs : (h :: u) ++ q ++ v = h :: (u ++ q ++ v) := by simp
    have hb : q.isPrefixOf (h :: (u ++ q ++ v)) = false := by
      rw [← Bool.not_eq_true, List.isPrefixOf_iff_prefix]
      rintro ⟨c, hc⟩
      have := huniq [] c (by rw [hs, ← hc]; simp)
      simp at this
    rw [hs, countOcc_cons, hb, ih]
    · rfl
    · intro a c hac
      have := huniq (h :: a) c (by rw [hs, ← hac]; simp)
      simpa using this

/-- A text that occurs neither earlier nor later than after `u` has one place
only in `u ++ q ++ v`. -/
theorem unique_place (q u v a c : JSString) (hq : q ≠ [])
    (h1 : ¬ q <:+: u ++ q.dropLast) (h2 : ¬ q <:+: q.tail ++ v)
    (h : a ++ q ++ c = u ++ q ++ v) : a = u := by
  rw [List.append_assoc, List.append_assoc, List.append_eq_append_iff] at h
  rcases h with ⟨a', hu, hqc⟩ | ⟨c', ha, hqv⟩
  · -- `u = a ++ a'`: the occurrence after `a` is an earlier one unless `a' = []`
    by_cases ha' : a' = []
    · subst ha'; simpa using hu.symm
    · exfalso
      apply h1
      have hlen : q.length ≤ (a' ++ q.dropLast).length := by
        have := List.length_pos.mpr ha'
        have := List.length_pos.mpr hq
        simp only [List.length_append, List.length_dropLast]
        omega
      have hpre : q <+: a' ++ q.dropLast := by
        refine List.prefix_of_prefix_length_le ⟨c, hqc⟩ ?_ hlen
        obtain ⟨w, hw⟩ := List.dropLast_prefix q
        exact ⟨w ++ v, by rw [List.append_assoc, ← List.append_assoc q.dropLast w v, hw]⟩
      rw [hu, List.append_assoc]
      exact infix_append_of_right a hpre.isInfix
  · by_cases hc' : c' = []
    · subst hc'; simpa using ha
    · exfalso
      apply h2
      cases q with
      | nil => exact absurd rfl hq
      | cons x q' =>
        cases c' with
        | nil => exact absurd rfl hc'
        | cons y c'' =>
          simp only [List.cons_append, List.cons.injEq] at hqv
          rw [List.tail_cons, hqv.2]
          exact ⟨c'', c, by simp⟩

theorem Shielded.sandwich {p m1 m2 : JSString} (X : JSString) (h1 : Shielded p m1)
    (hX : ¬ p <:+: X) (h2 : Shielded p m2) : Shielded p (m1 ++ X ++ m2) := by
  intro l r hin
  have e : l ++ (m1 ++ X ++ m2) ++ r = l ++ m1 ++ (X ++ m2 ++ r) := by simp
  rw [e] at hin
  rcases h1 l _ hin with h | h
  · exact Or.inl h
  · rcases h2 X r h with h' | h'
    · exact absurd h' hX
    · exact Or.inr h'

/-- The title-closing tag of a title element is the first one when there is none
before the element and none in the title text. -/
theorem title_first (l X : JSString) (hl : ¬ TITLE <:+: l) (hX : ¬ TITLE <:+: X) :
    ¬ TITLE <:+: (l ++ TITLE_OPEN ++ X) ++ TITLE.dropLast := by
  intro hin
  have e : l ++ TITLE_OPEN ++ X ++ TITLE.dropLast = l ++ TITLE_OPEN ++ (X ++ TITLE.dropLast) := by
    simp
  rw [e] at hin
  rcases shielded_of_apart TITLE TITLE_OPEN (by decide) l _ hin with h | h
  · exact hl h
  · exact hX (infix_left_of_endFree TITLE TITLE.dropLast X (by decide) h)

/-- C7, as stated, fails: `twoTitles` holds the title element `<title>X</title>`,
and its output holds that element twice. -/
theorem title_twice_in_output :
    TITLE_OPEN ++ js "X" ++ TITLE <:+: twoTitles ∧
    transform twoTitles =
      (TITLE_OPEN ++ js "X" ++ TITLE) ++
        (SEP ++ LINK_BUNDLE ++ SEP ++ LINK_STYLES ++ SEP ++ LINK_FONT) ++
        (TITLE_OPEN ++ js "X" ++ TITLE) ∧
    countOcc (TITLE_OPEN ++ js "X" ++ TITLE) (transform twoTitles) = 2 := by
  decide

/-- C7, amended. Let the text left by the two deletions (rules 1 and 2) read
`l ++ <title>X</title> ++ r`, with no title-closing tag in `l` and with a
title text `X` that holds none of the texts rules 3 to 8 search for. Then the
output reads `L ++ <title>X</title> ++ SEP ++ LINK_BUNDLE ++ SEP ++ LINK_STYLES ++
SEP ++ LINK_FONT ++ R`: the title element is followed immediately, white space
apart, by the three preload hints in this order. When `r` holds no
title-closing tag either, the output holds `<title>X</title>` exactly once. -/
theorem title_followed_by_preload (html l X r : JSString)
    (hs : rule2 (rule1 html) = l ++ (TITLE_OPEN ++ X ++ TITLE) ++ r)
    (hl : ¬ TITLE <:+: l)
    (hX : ∀ p ∈ [REACT, TITLE, BODY, RESET, STYLES, FONT], ¬ p <:+: X) :
    ∃ L R : JSString,
      transform html =
        L ++ (TITLE_OPEN ++ X ++ TITLE) ++
          (SEP ++ LINK_BUNDLE ++ SEP ++ LINK_STYLES ++ SEP ++ LINK_FONT) ++ R ∧
      SEP.all isWhiteSpace = true ∧
      (¬ TITLE <:+: r → countOcc (TITLE_OPEN ++ X ++ TITLE) (transform html) = 1) := by
  have hXR : ¬ REACT <:+: X := hX REACT (by simp)
  have hXT : ¬ TITLE <:+: X := hX TITLE (by simp)
  have hXB : ¬ BODY <:+: X := hX BODY (by simp)
  have hXS : ¬ RESET <:+: X := hX RESET (by simp)
  have hXY : ¬ STYLES <:+: X := hX STYLES (by simp)
  have hXF : ¬ FONT <:+: X := hX FONT (by simp)
  -- rule 3 rewrites one side of the title element
  obtain ⟨l1, r1, hinv1, heq1⟩ := applyRules_sides [(REACT, CDN)]
    (patterns_ne_nil_of_all _ (by decide)) l r
  have h3 : rule3 (rule2 (rule1 html)) = l1 ++ (TITLE_OPEN ++ X ++ TITLE) ++ r1 := by
    rw [hs]
    apply heq1
    intro pr hpr
    simp only [List.mem_singleton] at hpr
    subst hpr
    exact Shielded.sandwich X (shielded_of_apart _ _ (by decide)) hXR
      (shielded_of_apart _ _ (by decide))
  have hinv1' := hinv1 TITLE (shielded_by_replacements_of_all TITLE _ (by decide))
  have hl1 : ¬ TITLE <:+: l1 := hinv1'.1 hl
  -- rule 4 finds the title-closing tag of the element
  have h4 : rule4 (l1 ++ (TITLE_OPEN ++ X ++ TITLE) ++ r1) =
      l1 ++ (TITLE_OPEN ++ X ++ PRELOAD) ++ r1 := by
    have e : l1 ++ (TITLE_OPEN ++ X ++ TITLE) ++ r1 = (l1 ++ TITLE_OPEN ++ X) ++ TITLE ++ r1 := by
      simp
    rw [e]
    unfold rule4
    rw [replaceStr_first _ TITLE r1 PRELOAD (title_first l1 X hl1 hXT)]
    simp
  -- rules 5 to 8 rewrite the sides
  obtain ⟨L, R, hinv2, heq2⟩ := applyRules_sides
    [(BODY, BUNDLE), (RESET, RESETMIN), (STYLES, STYLESMIN), (FONT, FONTMIN)]
    (patterns_ne_nil_of_all _ (by decide)) l1 r1
  have h58 : rule8 (rule7 (rule6 (rule5 (l1 ++ (TITLE_OPEN ++ X ++ PRELOAD) ++ r1)))) =
      L ++ (TITLE_OPEN ++ X ++ PRELOAD) ++ R := by
    apply heq2
    intro pr hpr
    simp only [List.mem_cons, List.mem_singleton, List.not_mem_nil, or_false] at hpr
    rcases hpr with rfl | rfl | rfl | rfl
    · exact Shielded.sandwich X (shielded_of_apart _ _ (by decide)) hXB
        (shielded_of_apart _ _ (by decide))
    · exact Shielded.sandwich X (shielded_of_apart _ _ (by decide)) hXS
        (shielded_of_apart _ _ (by decide))
    · exact Shielded.sandwich X (shielded_of_apart _ _ (by decide)) hXY
        (shielded_of_apart _ _ (by decide))
    · exact Shielded.sandwich X (shielded_of_apart _ _ (by decide)) hXF
        (shielded_of_apart _ _ (by decide))
  have hinv2' := hinv2 TITLE (shielded_by_replacements_of_all TITLE _ (by decide))
  have ht : transform html =
      L ++ (TITLE_OPEN ++ X ++ TITLE) ++
        (SEP ++ LINK_BUNDLE ++ SEP ++ LINK_STYLES ++ SEP ++ LINK_FONT) ++ R := by
    have e : transform html =
        rule8 (rule7 (rule6 (rule5 (rule4 (rule3 (rule2 (rule1 html))))))) := rfl
    rw [e, h3, h4, h58, PRELOAD_eq]
    simp
  refine ⟨L, R, ht, SEP_whiteSpace, ?_⟩
  intro hr
  have hL : ¬ TITLE <:+: L := hinv2'.1 hl1
  have hR : ¬ TITLE <:+: R := hinv2'.2 (hinv1'.2 hr)
  rw [ht]
  have e1 : L ++ (TITLE_OPEN ++ X ++ TITLE) ++
      (SEP ++ LINK_BUNDLE ++ SEP ++ LINK_STYLES ++ SEP ++ LINK_FONT) ++ R =
      L ++ (TITLE_OPEN ++ X ++ TITLE) ++
        ((SEP ++ LINK_BUNDLE ++ SEP ++ LINK_STYLES ++ SEP ++ LINK_FONT) ++ R) := by simp
  rw [e1]
  apply countOcc_eq_one_of_unique
  intro a c hac
  -- the title-closing tag has one place only in the output
  have hlater : ¬ TITLE <:+: TITLE.tail ++
      ((SEP ++ LINK_BUNDLE ++ SEP ++ LINK_STYLES ++ SEP ++ LINK_FONT) ++ R) := by
    intro hin
    rw [← List.append_assoc] at hin
    exact hR (infix_right_of_startFree TITLE _ R (by decide) hin)
  have hplace := unique_place TITLE (L ++ TITLE_OPEN ++ X)
    ((SEP ++ LINK_BUNDLE ++ SEP ++ LINK_STYLES ++ SEP ++ LINK_FONT) ++ R)
    (a ++ TITLE_OPEN ++ X) c (by decide) (title_first L X hL hXT) hlater
    (by
      have e2 : a ++ TITLE_OPEN ++ X ++ TITLE ++ c = a ++ (TITLE_OPEN ++ X ++ TITLE) ++ c := by
        simp
      rw [e2, hac]
      simp)
  have e3 : a ++ TITLE_OPEN ++ X = a ++ (TITLE_OPEN ++ X) := by simp
  have e4 : L ++ TITLE_OPEN ++ X = L ++ (TITLE_OPEN ++ X) := by simp
  rw [e3, e4] at hplace
  exact List.append_cancel_right hplace

/-- C7, amended, on the end-to-end document, whose title text is `T`. -/
theorem title_followed_by_preload_witness :
    rule2 (rule1 endToEnd) = e2eTitleLeft ++ (TITLE_OPEN ++ js "T" ++ TITLE) ++ e2eTitleRight ∧
    (¬ TITLE <:+: e2eTitleLeft) ∧
    (∀ p ∈ [REACT, TITLE, BODY, RESET, STYLES, FONT], ¬ p <:+: js "T") ∧
    ∃ L R : JSString,
      transform endToEnd =
        L ++ (TITLE_OPEN ++ js "T" ++ TITLE) ++
          (SEP ++ LINK_BUNDLE ++ SEP ++ LINK_STYLES ++ SEP ++ LINK_FONT) ++ R ∧
      SEP.all isWhiteSpace = true ∧
      (¬ TITLE <:+: e2eTitleRight →
        countOcc (TITLE_OPEN ++ js "T" ++ TITLE) (transform endToEnd) = 1) :=
  ⟨by decide, by decide, by decide,
    title_followed_by_preload endToEnd e2eTitleLeft (js "T") e2eTitleRight (by decide)
      (by decide) (by decide)⟩

/-! ## Rule 5: the bundle script -/

/-- C8. On a document `before ++ OPEN ++ interior ++ CLOSE ++ after` (no opening
marker in `before`, no closing marker in `interior`) that holds a body-closing
tag outside its inline script block, rule 5 puts the bundle script tag
immediately before the first body-closing tag of the text it receives, rules 6
to 8 leave the inserted tag and that body-closing tag as they are, and in the
output the body-closing tag that follows the inserted tag is the first one. -/
theorem bundle_before_body (before interior after : JSString)
    (hb : ¬ OPEN <:+: before) (hi : ¬ CLOSE <:+: interior)
    (hin : BODY <:+: before ∨ BODY <:+: after) :
    ∃ l r L R : JSString,
      rule4 (rule3 (rule2 (rule1 (before ++ OPEN ++ interior ++ CLOSE ++ after)))) =
        l ++ BODY ++ r ∧
      findFrom BODY (l ++ BODY ++ r) = some l.length ∧
      rule5 (l ++ BODY ++ r) = l ++ (BUNDLE_TAG ++ BODY) ++ r ∧
      rule8 (rule7 (rule6 (l ++ (BUNDLE_TAG ++ BODY) ++ r))) = L ++ (BUNDLE_TAG ++ BODY) ++ R ∧
      transform (before ++ OPEN ++ interior ++ CLOSE ++ after) =
        L ++ (BUNDLE_TAG ++ BODY) ++ R ∧
      findFrom BODY (transform (before ++ OPEN ++ interior ++ CLOSE ++ after)) =
        some (L ++ BUNDLE_TAG).length := by
  have h1 := rule1_block before interior after hb hi
  have hin1 : BODY <:+: before ++ after := by
    rcases hin with h | h
    · exact infix_append_of_left after h
    · exact infix_append_of_right before h
  have hin4 : BODY <:+: rule4 (rule3 (rule2 (before ++ after))) :=
    infix_applyRules BODY [(BABEL, []), (REACT, CDN), (TITLE, PRELOAD)]
      (patterns_ne_nil_of_all _ (by decide))
      (shielded_by_patterns_of_all BODY _ (by decide)) _ hin1
  rcases replaceStr_cases (rule4 (rule3 (rule2 (before ++ after)))) BODY BUNDLE (by decide) with
    ⟨hn, _⟩ | ⟨l, r, hs, hfirst, he⟩
  · exact absurd hin4 hn
  · obtain ⟨L, R, hinv, heq⟩ := applyRules_sides
      [(RESET, RESETMIN), (STYLES, STYLESMIN), (FONT, FONTMIN)]
      (patterns_ne_nil_of_all _ (by decide)) l r
    have hl : ¬ BODY <:+: l := fun h => hfirst (infix_append_of_left _ h)
    have hL : ¬ BODY <:+: L :=
      (hinv BODY (shielded_by_replacements_of_all BODY _ (by decide))).1 hl
    have h5 : rule5 (l ++ BODY ++ r) = l ++ (BUNDLE_TAG ++ BODY) ++ r := by
      rw [← BUNDLE_eq]
      exact replaceStr_first l BODY r BUNDLE hfirst
    have h68 : rule8 (rule7 (rule6 (l ++ (BUNDLE_TAG ++ BODY) ++ r))) =
        L ++ (BUNDLE_TAG ++ BODY) ++ R := by
      rw [← BUNDLE_eq]
      exact heq BUNDLE (shielded_patterns_of_all BUNDLE _ (by decide))
    have ht : transform (before ++ OPEN ++ interior ++ CLOSE ++ after) =
        L ++ (BUNDLE_TAG ++ BODY) ++ R := by
      have e : transform (before ++ OPEN ++ interior ++ CLOSE ++ after) =
          rule8 (rule7 (rule6 (rule5
            (rule4 (rule3 (rule2 (rule1 (before ++ OPEN ++ interior ++ CLOSE ++ after)))))))) :=
        rfl
      rw [e, h1, hs, h5, h68]
    refine ⟨l, r, L, R, by rw [h1, hs], findFrom_append_first BODY l r hfirst, h5, h68, ht, ?_⟩
    rw [ht]
    have e2 : L ++ (BUNDLE_TAG ++ BODY) ++ R = (L ++ BUNDLE_TAG) ++ BODY ++ R := by simp
    rw [e2]
    apply findFrom_append_first
    intro hin'
    have e3 : L ++ BUNDLE_TAG ++ BODY.dropLast = L ++ (BUNDLE_TAG ++ BODY.dropLast) := by simp
    rw [e3] at hin'
    exact hL (infix_left_of_endFree BODY _ L (by decide) hin')

/-- C8 on the end-to-end document. -/
theorem bundle_before_body_witness :
    (¬ OPEN <:+: e2eBefore) ∧ (¬ CLOSE <:+: e2eInterior) ∧
    (BODY <:+: e2eBefore ∨ BODY <:+: e2eAfter) ∧
    ∃ l r L R : JSString,
      rule4 (rule3 (rule2 (rule1 (e2eBefore ++ OPEN ++ e2eInterior ++ CLOSE ++ e2eAfter)))) =
        l ++ BODY ++ r ∧
      findFrom BODY (l ++ BODY ++ r) = some l.length ∧
      rule5 (l ++ BODY ++ r) = l ++ (BUNDLE_TAG ++ BODY) ++ r ∧
      rule8 (rule7 (rule6 (l ++ (BUNDLE_TAG ++ BODY) ++ r))) = L ++ (BUNDLE_TAG ++ BODY) ++ R ∧
      transform (e2eBefore ++ OPEN ++ e2eInterior ++ CLOSE ++ e2eAfter) =
        L ++ (BUNDLE_TAG ++ BODY) ++ R ∧
      findFrom BODY (transform (e2eBefore ++ OPEN ++ e2eInterior ++ CLOSE ++ e2eAfter)) =
        some (L ++ BUNDLE_TAG).length :=
  ⟨by decide, by decide, Or.inr (by decide),
    bundle_before_body e2eBefore e2eInterior e2eAfter (by decide) (by decide)
      (Or.inr (by decide))⟩

/-! ## Rule 6: the reset stylesheet -/

/-- C9, as stated, fails: `twoResets` holds the reference to the reset
stylesheet, and so does its output, rule 6 rewriting the first one only. -/
theorem reset_left_in_output :
    RESET <:+: twoResets ∧
    transform twoResets = js "<link href=\"./reset.min.css\"><link href=\"reset.css\">" ∧
    RESET <:+: transform twoResets ∧
    countOcc RESET (transform twoResets) = 1 := by
  decide

/-- C9, amended. On every document in which the text left by the two deletions
(rules 1 and 2) holds the reference to the reset stylesheet exactly once, the
output holds the reference to the minified reset stylesheet and not a single
reference to the original one. -/
theorem reset_rewritten (html a b : JSString)
    (hs : rule2 (rule1 html) = a ++ RESET ++ b)
    (ha : ¬ RESET <:+: a) (hb : ¬ RESET <:+: b) :
    RESETMIN <:+: transform html ∧ ¬ RESET <:+: transform html := by
  obtain ⟨a1, b1, hinv1, heq1⟩ := applyRules_sides
    [(REACT, CDN), (TITLE, PRELOAD), (BODY, BUNDLE)]
    (patterns_ne_nil_of_all _ (by decide)) a b
  have h35 : rule5 (rule4 (rule3 (rule2 (rule1 html)))) = a1 ++ RESET ++ b1 := by
    rw [hs]
    exact heq1 RESET (shielded_patterns_of_all RESET _ (by decide))
  have hinv1' := hinv1 RESET (shielded_by_replacements_of_all RESET _ (by decide))
  have ha1 : ¬ RESET <:+: a1 := hinv1'.1 ha
  have hb1 : ¬ RESET <:+: b1 := hinv1'.2 hb
  have h6 : rule6 (a1 ++ RESET ++ b1) = a1 ++ RESETMIN ++ b1 :=
    replaceStr_first_of_unbordered a1 RESET b1 RESETMIN (by decide) ha1
  obtain ⟨a2, b2, hinv2, heq2⟩ := applyRules_sides
    [(STYLES, STYLESMIN), (FONT, FONTMIN)]
    (patterns_ne_nil_of_all _ (by decide)) a1 b1
  have h78 : rule8 (rule7 (a1 ++ RESETMIN ++ b1)) = a2 ++ RESETMIN ++ b2 :=
    heq2 RESETMIN (shielded_patterns_of_all RESETMIN _ (by decide))
  have hinv2' := hinv2 RESET (shielded_by_replacements_of_all RESET _ (by decide))
  have ht : transform html = a2 ++ RESETMIN ++ b2 := by
    have e : transform html =
        rule8 (rule7 (rule6 (rule5 (rule4 (rule3 (rule2 (rule1 html))))))) := rfl
    rw [e, h35, h6, h78]
  rw [ht]
  refine ⟨⟨a2, b2, rfl⟩, ?_⟩
  intro hin
  rcases shielded_of_apart RESET RESETMIN (by decide) a2 b2 hin with h | h
  · exact hinv2'.1 ha1 h
  · exact hinv2'.2 hb1 h

/-- C9, amended, on the end-to-end document. -/
theorem reset_rewritten_witness :
    rule2 (rule1 endToEnd) = e2eResetLeft ++ RESET ++ e2eResetRight ∧
    (¬ RESET <:+: e2eResetLeft) ∧ (¬ RESET <:+: e2eResetRight) ∧
    RESETMIN <:+: transform endToEnd ∧ ¬ RESET <:+: transform endToEnd :=
  ⟨by decide, by decide, by decide,
    reset_rewritten endToEnd e2eResetLeft e2eResetRight (by decide) (by decide) (by decide)⟩

/-! ## Rules 1 and 3 -/

end EsbuildConfig
